import Mathlib

/-!
Verification of the perception graph store and its training harness.

The store keeps perception nodes (id, embedding, activation counter,
confidence) and weighted directed relation edges, and answers similarity
queries by dot product.  Numbers are modelled as rationals; the graph
database is modelled as an explicit state (a list of nodes in insertion
order plus a list of edges).  The Cypher query semantics are embedded
directly:

* `CREATE` of a node or an edge appends unconditionally;
* relation creation matches every node with the source id against every
  node with the target id and creates one edge per matched pair, hence a
  missing target silently yields no edge;
* list indexing out of range yields `null`, and arithmetic on `null` is
  `null`, so the similarity of a perception whose embedding is longer
  than the query is `null` (modelled as `Option.none`) and the `WHERE`
  filter drops it;
* the `SET` of `activation_count` runs on every row that passes `WHERE`,
  before `ORDER BY`/`LIMIT` truncate the returned rows.
-/

namespace PerceptronGraph

/-- A perception node stored in the graph: `bundle_id`, `embedding`,
`activation_count` and `confidence`, exactly the properties written by
`store_perception`. -/
structure Perception where
  bundle_id : String
  embedding : List ℚ
  activation_count : Nat
  confidence : ℚ
  deriving DecidableEq, Repr

/-- The graph state: perception nodes in insertion order and directed
relation edges `(source id, target id, weight)` in creation order. -/
structure Graph where
  nodes : List Perception
  edges : List (String × String × ℚ)
  deriving DecidableEq, Repr

/-- The first statement of `store_perception`: `CREATE` one perception
node with `activation_count = 0` and `confidence = 0.5`. -/
def createNode (g : Graph) (bundle_id : String) (embedding : List ℚ) : Graph :=
  { g with nodes := g.nodes ++ [⟨bundle_id, embedding, 0, 1/2⟩] }

/-- The per-relation statement of `store_perception`: `MATCH` every node
`p1` with the source id and every node `p2` with the target id, and
`CREATE` one `RELATES` edge per matched pair.  When no node carries the
target id the pattern matches nothing and no edge is created. -/
def createRelEdges (g : Graph) (bundle_id target : String) (weight : ℚ) : Graph :=
  { g with
    edges := g.edges ++
      (g.nodes.filter fun p1 => p1.bundle_id == bundle_id).flatMap fun p1 =>
        (g.nodes.filter fun p2 => p2.bundle_id == target).map fun p2 =>
          (p1.bundle_id, p2.bundle_id, weight) }

/-- `PerceptionStore.store_perception`: create the node, then process the
relations in order. -/
def store_perception (g : Graph) (bundle_id : String) (embeddings : List ℚ)
    (relations : List (String × ℚ)) : Graph :=
  relations.foldl (fun g2 rel => createRelEdges g2 bundle_id rel.1 rel.2)
    (createNode g bundle_id embeddings)

/-- The similarity expression of `activate_perceptions`:
`reduce(dot = 0.0, i IN range(0, size(p.embedding)-1) | dot + p.embedding[i] * $query[i])`.
Indexing `$query[i]` out of range yields `null` and poisons the whole
reduction, which happens exactly when the embedding is longer than the
query; otherwise the reduction is a left fold over the index range. -/
def similarity (e q : List ℚ) : Option ℚ :=
  if e.length ≤ q.length then
    some ((e.zip q).foldl (fun d p => d + p.1 * p.2) 0)
  else none

/-- Whether a perception passes the `WHERE similarity > 0.5` filter (a
`null` similarity is not greater than anything). -/
def passes (q : List ℚ) (p : Perception) : Bool :=
  match similarity p.embedding q with
  | some s => decide ((1:ℚ)/2 < s)
  | none => false

/-- The rows that survive the `WHERE similarity > 0.5` filter, in node
order: one `(bundle_id, similarity)` pair per passing perception. -/
def matchedRows : List Perception → List ℚ → List (String × ℚ)
  | [], _ => []
  | p :: ps, q =>
    match similarity p.embedding q with
    | some s =>
      if (1:ℚ)/2 < s then (p.bundle_id, s) :: matchedRows ps q else matchedRows ps q
    | none => matchedRows ps q

/-- Stable insertion into a list sorted by descending similarity: the new
row goes in front of the first strictly smaller similarity, after all
rows with similarity at least its own. -/
def insertDesc (x : String × ℚ) : List (String × ℚ) → List (String × ℚ)
  | [] => [x]
  | y :: ys => if y.2 ≤ x.2 then x :: y :: ys else y :: insertDesc x ys

/-- Stable sort by descending similarity, modelling `ORDER BY similarity DESC`. -/
def sortDesc : List (String × ℚ) → List (String × ℚ)
  | [] => []
  | x :: xs => insertDesc x (sortDesc xs)

/-- The rows returned by `activate_perceptions`: filtered rows sorted by
descending similarity and truncated by `LIMIT 5`. -/
def activate_results (g : Graph) (q : List ℚ) : List (String × ℚ) :=
  (sortDesc (matchedRows g.nodes q)).take 5

/-- The state change of `activate_perceptions`: the
`SET p.activation_count = p.activation_count + 1` clause runs on every
row that passed `WHERE`, before `ORDER BY` and `LIMIT`. -/
def activate_update (g : Graph) (q : List ℚ) : Graph :=
  { g with
    nodes := g.nodes.map fun p =>
      if passes q p then { p with activation_count := p.activation_count + 1 } else p }

/-- `PerceptionStore.activate_perceptions`: the updated graph state and
the returned `(bundle_id, similarity)` rows. -/
def activate_perceptions (g : Graph) (q : List ℚ) : Graph × List (String × ℚ) :=
  (activate_update g q, activate_results g q)

/-- One item of the training data handed to `PerceptionTrainer.train`. -/
structure TrainItem where
  id : String
  embedding : List ℚ
  relations : List (String × ℚ)
  deriving DecidableEq, Repr

/-- `PerceptionTrainer.train`: store every item in input order. -/
def train (g : Graph) (training_data : List TrainItem) : Graph :=
  training_data.foldl (fun g2 d => store_perception g2 d.id d.embedding d.relations) g

/-- One test query handed to `PerceptionTrainer.test`. -/
structure TestQuery where
  name : String
  embedding : List ℚ
  expected : List String
  deriving DecidableEq, Repr

/-- `PerceptionTrainer._calculate_accuracy`: 0 on an empty result list,
otherwise 1 when the first row's id is among the expected ids and 0
otherwise. -/
def calculate_accuracy (activated : List (String × ℚ)) (expected : List String) : ℚ :=
  match activated with
  | [] => 0
  | top :: _ => if top.1 ∈ expected then 1 else 0

/-- How a run of `PerceptionTrainer.test` can fail.
`zeroDivisionError` is the interpreter error raised by
`sum(results) / len(results)` on an empty result list.  `emptyInput` is
modelled from the spec, which demands an explicit `EmptyInput` error for
an empty query list; it is present so the two failure modes can be
compared and is never produced by the embedded code. -/
inductive TestError where
  | zeroDivisionError
  | emptyInput
  deriving DecidableEq, Repr

/-- One iteration of the loop in `PerceptionTrainer.test`: run the
similarity query against the current state (recording its activation
side effect) and append the accuracy of this query. -/
def testStep (s : Graph × List ℚ) (query : TestQuery) : Graph × List ℚ :=
  (activate_update s.1 query.embedding,
    s.2 ++ [calculate_accuracy (activate_results s.1 query.embedding) query.expected])

/-- `PerceptionTrainer.test`: score every query in order, then return
`sum(results) / len(results)`; with no queries that division raises
`ZeroDivisionError`. -/
def test (g : Graph) (test_queries : List TestQuery) : Except TestError ℚ :=
  let results := (test_queries.foldl testStep (g, [])).2
  if results.length = 0 then Except.error TestError.zeroDivisionError
  else Except.ok (results.sum / (results.length : ℚ))

/-- The raw dot product of two equally long vectors (for vectors of
different lengths, the dot product of their common prefix). -/
def dot (e q : List ℚ) : ℚ :=
  ((e.zip q).map fun p => p.1 * p.2).sum

/-- A perception is retained by a query when its similarity is a real
number strictly above the threshold. -/
def retained (q : List ℚ) (p : Perception) : Prop :=
  ∃ s, similarity p.embedding q = some s ∧ (1:ℚ)/2 < s

instance : Inhabited Perception := ⟨⟨"", [], 0, 0⟩⟩

/-! ### Basic lemmas about the similarity expression -/

lemma foldl_add_mul (l : List (ℚ × ℚ)) (a : ℚ) :
    l.foldl (fun d p => d + p.1 * p.2) a = a + (l.map fun p => p.1 * p.2).sum := by
  induction l generalizing a with
  | nil => simp
  | cons x l ih => simp [ih, add_assoc]

lemma similarity_eq_dot (e q : List ℚ) (h : e.length ≤ q.length) :
    similarity e q = some (dot e q) := by
  simp [similarity, h, dot, foldl_add_mul]

lemma similarity_none (e q : List ℚ) (h : q.length < e.length) :
    similarity e q = none := by
  simp [similarity, not_le.mpr h]

lemma zip_take_self (e : List ℚ) : ∀ q : List ℚ, e.zip (q.take e.length) = e.zip q := by
  induction e with
  | nil => intro q; simp
  | cons x e ih =>
    intro q
    cases q with
    | nil => simp
    | cons y q => simp [ih]

lemma passes_iff (q : List ℚ) (p : Perception) : passes q p = true ↔ retained q p := by
  unfold passes retained
  cases h : similarity p.embedding q <;> simp

/-! ### The stable descending sort -/

lemma insertDesc_perm (x : String × ℚ) (l : List (String × ℚ)) :
    (insertDesc x l).Perm (x :: l) := by
  induction l with
  | nil => simp [insertDesc]
  | cons y ys ih =>
    unfold insertDesc
    split
    · exact List.Perm.refl _
    · exact (List.Perm.cons y ih).trans (List.Perm.swap x y ys)

lemma sortDesc_perm (l : List (String × ℚ)) : (sortDesc l).Perm l := by
  induction l with
  | nil => exact List.Perm.refl _
  | cons x xs ih => exact (insertDesc_perm x (sortDesc xs)).trans (List.Perm.cons x ih)

lemma mem_insertDesc (z x : String × ℚ) (l : List (String × ℚ)) :
    z ∈ insertDesc x l ↔ z = x ∨ z ∈ l := by
  rw [(insertDesc_perm x l).mem_iff, List.mem_cons]

lemma sorted_insertDesc (x : String × ℚ) (l : List (String × ℚ))
    (h : l.Sorted (fun a b : String × ℚ => b.2 ≤ a.2)) :
    (insertDesc x l).Sorted (fun a b : String × ℚ => b.2 ≤ a.2) := by
  induction l with
  | nil => simp [insertDesc]
  | cons y ys ih =>
    rw [List.sorted_cons] at h
    unfold insertDesc
    split
    · rename_i hyx
      rw [List.sorted_cons]
      refine ⟨?_, List.sorted_cons.mpr h⟩
      intro b hb
      rcases List.mem_cons.mp hb with hb | hb
      · exact hb ▸ hyx
      · exact le_trans (h.1 b hb) hyx
    · rename_i hyx
      rw [List.sorted_cons]
      refine ⟨?_, ih h.2⟩
      intro b hb
      rcases (mem_insertDesc b x ys).mp hb with hb | hb
      · exact hb ▸ le_of_lt (lt_of_not_le hyx)
      · exact h.1 b hb

lemma sortDesc_sorted (l : List (String × ℚ)) :
    (sortDesc l).Sorted (fun a b : String × ℚ => b.2 ≤ a.2) := by
  induction l with
  | nil => simp [sortDesc]
  | cons x xs ih => exact sorted_insertDesc x (sortDesc xs) ih

/-! ### Lemmas about the retained rows and the returned rows -/

lemma matchedRows_congr (q : List ℚ) :
    ∀ l1 l2 : List Perception,
      l1.map (fun p => (p.bundle_id, p.embedding)) =
        l2.map (fun p => (p.bundle_id, p.embedding)) →
      matchedRows l1 q = matchedRows l2 q := by
  intro l1
  induction l1 with
  | nil =>
    intro l2 h
    cases l2 with
    | nil => rfl
    | cons p2 l2 => simp at h
  | cons p l1 ih =>
    intro l2 h
    cases l2 with
    | nil => simp at h
    | cons p2 l2 =>
      simp only [List.map_cons, List.cons.injEq, Prod.mk.injEq] at h
      obtain ⟨⟨hb, he⟩, ht⟩ := h
      unfold matchedRows
      rw [hb, he, ih l2 ht]

lemma proj_activate_update (g : Graph) (q : List ℚ) :
    (activate_update g q).nodes.map (fun p => (p.bundle_id, p.embedding)) =
      g.nodes.map (fun p => (p.bundle_id, p.embedding)) := by
  unfold activate_update
  simp only [List.map_map]
  refine List.map_congr_left ?_
  intro p _
  by_cases h : passes q p <;> simp [h]

lemma matchedRows_length_le (q : List ℚ) :
    ∀ l : List Perception, (matchedRows l q).length ≤ l.length := by
  intro l
  induction l with
  | nil => simp [matchedRows]
  | cons p l ih =>
    unfold matchedRows
    cases h : similarity p.embedding q with
    | none => exact le_trans ih (Nat.le_succ _)
    | some s =>
      dsimp only
      by_cases hs : (1:ℚ)/2 < s
      · rw [if_pos hs]
        exact Nat.succ_le_succ ih
      · rw [if_neg hs]
        exact le_trans ih (Nat.le_succ _)

lemma mem_matchedRows (q : List ℚ) (p : Perception) (s : ℚ) :
    ∀ l : List Perception, p ∈ l → similarity p.embedding q = some s → (1:ℚ)/2 < s →
      (p.bundle_id, s) ∈ matchedRows l q := by
  intro l
  induction l with
  | nil => intro hp; simp at hp
  | cons x l ih =>
    intro hp hsim hs
    rcases List.mem_cons.mp hp with hp | hp
    · subst hp
      unfold matchedRows
      rw [hsim]
      dsimp only
      rw [if_pos hs]
      exact List.mem_cons_self _ _
    · unfold matchedRows
      cases hx : similarity x.embedding q with
      | none => exact ih hp hsim hs
      | some sx =>
        dsimp only
        by_cases hsx : (1:ℚ)/2 < sx
        · rw [if_pos hsx]
          exact List.mem_cons_of_mem _ (ih hp hsim hs)
        · rw [if_neg hsx]
          exact ih hp hsim hs

lemma mem_matchedRows_origin (q : List ℚ) (x : String × ℚ) :
    ∀ l : List Perception, x ∈ matchedRows l q →
      ∃ p ∈ l, x.1 = p.bundle_id ∧ similarity p.embedding q = some x.2 ∧ (1:ℚ)/2 < x.2 := by
  intro l
  induction l with
  | nil => intro hx; simp [matchedRows] at hx
  | cons p l ih =>
    intro hx
    unfold matchedRows at hx
    revert hx
    cases hp : similarity p.embedding q with
    | none =>
      intro hx
      obtain ⟨p2, hp2, hrest⟩ := ih hx
      exact ⟨p2, List.mem_cons_of_mem _ hp2, hrest⟩
    | some s =>
      dsimp only
      by_cases hs : (1:ℚ)/2 < s
      · rw [if_pos hs]
        intro hx
        rcases List.mem_cons.mp hx with hx | hx
        · subst hx
          exact ⟨p, List.mem_cons_self _ _, rfl, hp, hs⟩
        · obtain ⟨p2, hp2, hrest⟩ := ih hx
          exact ⟨p2, List.mem_cons_of_mem _ hp2, hrest⟩
      · rw [if_neg hs]
        intro hx
        obtain ⟨p2, hp2, hrest⟩ := ih hx
        exact ⟨p2, List.mem_cons_of_mem _ hp2, hrest⟩

lemma activate_results_congr (g g2 : Graph) (q : List ℚ)
    (h : g.nodes.map (fun p => (p.bundle_id, p.embedding)) =
      g2.nodes.map (fun p => (p.bundle_id, p.embedding))) :
    activate_results g q = activate_results g2 q := by
  unfold activate_results
  rw [matchedRows_congr q g.nodes g2.nodes h]

lemma activate_results_after_update (g : Graph) (q1 q2 : List ℚ) :
    activate_results (activate_update g q1) q2 = activate_results g q2 :=
  activate_results_congr _ _ _ (proj_activate_update g q1)

lemma activate_results_subset (g : Graph) (q : List ℚ) :
    activate_results g q ⊆ matchedRows g.nodes q := by
  intro x hx
  exact (sortDesc_perm (matchedRows g.nodes q)).subset
    ((List.take_subset 5 _) hx)

lemma matchedRows_eq_dotFilter (q : List ℚ) :
    ∀ l : List Perception, (∀ p ∈ l, p.embedding.length = q.length) →
      matchedRows l q = l.filterMap fun p =>
        if (1:ℚ)/2 < dot p.embedding q then some (p.bundle_id, dot p.embedding q)
        else none := by
  intro l
  induction l with
  | nil => intro _; rfl
  | cons p l ih =>
    intro h
    have hp : p.embedding.length = q.length := h p (List.mem_cons_self _ _)
    have ht : ∀ p2 ∈ l, p2.embedding.length = q.length :=
      fun p2 hp2 => h p2 (List.mem_cons_of_mem _ hp2)
    unfold matchedRows
    rw [similarity_eq_dot p.embedding q (le_of_eq hp)]
    dsimp only
    rw [List.filterMap_cons, ih ht]
    by_cases hs : (1:ℚ)/2 < dot p.embedding q
    · rw [if_pos hs, if_pos hs]
    · rw [if_neg hs, if_neg hs]

lemma matchedRows_filter_len (q : List ℚ) :
    ∀ l : List Perception,
      matchedRows (l.filter fun p => decide (p.embedding.length ≤ q.length)) q =
        matchedRows l q := by
  intro l
  induction l with
  | nil => rfl
  | cons p l ih =>
    rw [List.filter_cons]
    by_cases hp : p.embedding.length ≤ q.length
    · rw [if_pos (by simpa using hp)]
      show matchedRows (p :: _) q = _
      unfold matchedRows
      rw [ih]
    · rw [if_neg (by simpa using hp)]
      rw [ih]
      conv_rhs => unfold matchedRows
      rw [similarity_none p.embedding q (not_le.mp hp)]

/-! ### Lemmas about the trainer -/

lemma foldl_testStep (qs : List TestQuery) :
    ∀ (g : Graph) (acc : List ℚ),
      (qs.foldl testStep (g, acc)).2 =
        acc ++ qs.map fun query =>
          calculate_accuracy (activate_results g query.embedding) query.expected := by
  induction qs with
  | nil => intro g acc; simp
  | cons query qs ih =>
    intro g acc
    rw [List.foldl_cons]
    show (qs.foldl testStep
      (activate_update g query.embedding,
        acc ++ [calculate_accuracy (activate_results g query.embedding) query.expected])).2 = _
    rw [ih]
    have hm : (qs.map fun query2 =>
        calculate_accuracy
          (activate_results (activate_update g query.embedding) query2.embedding)
          query2.expected) =
        qs.map fun query2 =>
          calculate_accuracy (activate_results g query2.embedding) query2.expected :=
      List.map_congr_left fun query2 _ => by rw [activate_results_after_update]
    rw [hm, List.append_assoc, List.singleton_append, List.map_cons]

/-! ### Lemmas about node and edge creation -/

lemma nodes_createRelEdges (g : Graph) (a t : String) (w : ℚ) :
    (createRelEdges g a t w).nodes = g.nodes := rfl

lemma nodes_foldl_rels (id : String) :
    ∀ (rels : List (String × ℚ)) (g : Graph),
      (rels.foldl (fun g2 rel => createRelEdges g2 id rel.1 rel.2) g).nodes = g.nodes := by
  intro rels
  induction rels with
  | nil => intro g; rfl
  | cons rel rels ih =>
    intro g
    rw [List.foldl_cons, ih, nodes_createRelEdges]

lemma nodes_store_perception (g : Graph) (id : String) (e : List ℚ)
    (rels : List (String × ℚ)) :
    (store_perception g id e rels).nodes = g.nodes ++ [⟨id, e, 0, 1/2⟩] := by
  unfold store_perception
  rw [nodes_foldl_rels]
  rfl

lemma filter_bundle_eq_nil (t : String) :
    ∀ l : List Perception, (∀ p ∈ l, p.bundle_id ≠ t) →
      l.filter (fun p => p.bundle_id == t) = [] := by
  intro l h
  rw [List.filter_eq_nil_iff]
  intro p hp
  simpa using h p hp

lemma filter_bundle_unique (t : String) :
    ∀ l : List Perception, (l.map Perception.bundle_id).Nodup →
      ∀ p0 ∈ l, p0.bundle_id = t →
        l.filter (fun p => p.bundle_id == t) = [p0] := by
  intro l
  induction l with
  | nil => intro _ p0 hp0; simp at hp0
  | cons x l ih =>
    intro hnd p0 hp0 ht
    rw [List.map_cons, List.nodup_cons] at hnd
    rcases List.mem_cons.mp hp0 with hp0 | hp0
    · subst hp0
      rw [List.filter_cons, if_pos (by simpa using ht)]
      have : l.filter (fun p => p.bundle_id == t) = [] := by
        refine filter_bundle_eq_nil t l ?_
        intro p hp hpt
        exact hnd.1 (ht ▸ hpt ▸ List.mem_map_of_mem Perception.bundle_id hp)
      rw [this]
    · have hxt : x.bundle_id ≠ t := by
        intro hxt
        exact hnd.1 (hxt ▸ ht ▸ List.mem_map_of_mem Perception.bundle_id hp0)
      rw [List.filter_cons, if_neg (by simpa using hxt)]
      exact ih hnd.2 p0 hp0 ht

lemma step_edges (g : Graph) (id : String) (e : List ℚ) (t : String) (w : ℚ)
    (hfresh : ∀ p ∈ g.nodes, p.bundle_id ≠ id)
    (hnodup : (g.nodes.map Perception.bundle_id).Nodup)
    (g2 : Graph) (hg2 : g2.nodes = g.nodes ++ [⟨id, e, 0, 1/2⟩]) :
    (createRelEdges g2 id t w).edges =
      g2.edges ++
        (if (t == id) || g.nodes.any (fun p => p.bundle_id == t) then [(id, t, w)]
        else []) := by
  unfold createRelEdges
  dsimp only
  rw [hg2, List.filter_append, List.filter_append,
    filter_bundle_eq_nil id g.nodes hfresh]
  by_cases hti : t = id
  · subst hti
    rw [filter_bundle_eq_nil t g.nodes hfresh]
    simp
  · have hit : ((⟨id, e, 0, 1/2⟩ : Perception).bundle_id == t) = false := by
      simp only [Perception.bundle_id]
      exact beq_eq_false_iff_ne.mpr fun h => hti h.symm
    by_cases hex : ∃ p0 ∈ g.nodes, p0.bundle_id = t
    · obtain ⟨p0, hp0, hp0t⟩ := hex
      rw [filter_bundle_unique t g.nodes hnodup p0 hp0 hp0t]
      have hany : (g.nodes.any fun p => p.bundle_id == t) = true := by
        rw [List.any_eq_true]
        exact ⟨p0, hp0, by simp [hp0t]⟩
      simp [hit, hany, hp0t]
    · push_neg at hex
      rw [filter_bundle_eq_nil t g.nodes hex]
      have hany : (g.nodes.any fun p => p.bundle_id == t) = false := by
        rw [List.any_eq_false]
        intro p hp
        simpa using hex p hp
      have htid : (t == id) = false := beq_eq_false_iff_ne.mpr hti
      simp [hit, hany, htid]

lemma store_edges_aux (g : Graph) (id : String) (e : List ℚ)
    (hfresh : ∀ p ∈ g.nodes, p.bundle_id ≠ id)
    (hnodup : (g.nodes.map Perception.bundle_id).Nodup) :
    ∀ (rels : List (String × ℚ)) (g2 : Graph),
      g2.nodes = g.nodes ++ [⟨id, e, 0, 1/2⟩] →
      (rels.foldl (fun gg rel => createRelEdges gg id rel.1 rel.2) g2).edges =
        g2.edges ++
          (rels.filter fun rel =>
              (rel.1 == id) || g.nodes.any fun p => p.bundle_id == rel.1).map
            fun rel => (id, rel.1, rel.2) := by
  intro rels
  induction rels with
  | nil => intro g2 _; simp
  | cons rel rels ih =>
    intro g2 hg2
    rw [List.foldl_cons,
      ih (createRelEdges g2 id rel.1 rel.2) (by rw [nodes_createRelEdges, hg2]),
      step_edges g id e rel.1 rel.2 hfresh hnodup g2 hg2,
      List.filter_cons, List.append_assoc]
    by_cases hc : ((rel.1 == id) || g.nodes.any fun p => p.bundle_id == rel.1) = true
    · rw [if_pos hc, if_pos hc, List.map_cons, List.singleton_append]
    · rw [if_neg hc, if_neg hc, List.nil_append]

lemma getD_activate_update (g : Graph) (q : List ℚ) (i : Nat) (hi : i < g.nodes.length) :
    (activate_update g q).nodes.getD i default =
      if passes q (g.nodes.getD i default) then
        { g.nodes.getD i default with
            activation_count := (g.nodes.getD i default).activation_count + 1 }
      else g.nodes.getD i default := by
  unfold activate_update
  dsimp only
  rw [List.getD_eq_getElem?_getD, List.getElem?_map, List.getD_eq_getElem?_getD]
  cases h : g.nodes[i]? with
  | none =>
    rw [List.getElem?_eq_none_iff] at h
    omega
  | some p => rfl

/-! ### A concrete store used to instantiate the theorems -/

/-- A store holding one perception with id `a` and embedding `[1]`. -/
def gOne : Graph := ⟨[⟨"a", [1], 0, 1/2⟩], []⟩

/-! ### The claims -/

/-- C1: for a query vector matching the stored embedding lengths, the
similarity query computes each perception's similarity as the raw dot
product with the query, retains exactly the perceptions whose similarity
strictly exceeds the threshold `0.5`, sorts the retained rows by
similarity descending, truncates to the limit `5`, and returns the
ordered `(id, similarity)` rows — the empty sequence when nothing clears
the threshold, since then the retained rows are a permutation of the
empty list. -/
theorem activate_results_spec (g : Graph) (q : List ℚ)
    (hlen : ∀ p ∈ g.nodes, p.embedding.length = q.length) :
    ∃ l : List (String × ℚ),
      l.Perm (g.nodes.filterMap fun p =>
        if (1:ℚ)/2 < dot p.embedding q then some (p.bundle_id, dot p.embedding q)
        else none) ∧
      l.Sorted (fun a b : String × ℚ => b.2 ≤ a.2) ∧
      activate_results g q = l.take 5 ∧
      (activate_results g q).Sorted (fun a b : String × ℚ => b.2 ≤ a.2) ∧
      (activate_results g q).length ≤ 5 := by
  refine ⟨sortDesc (matchedRows g.nodes q), ?_, sortDesc_sorted _, rfl, ?_, ?_⟩
  · rw [← matchedRows_eq_dotFilter q g.nodes hlen]
    exact sortDesc_perm _
  · exact List.Pairwise.sublist (List.take_sublist 5 _) (sortDesc_sorted _)
  · unfold activate_results
    rw [List.length_take]
    exact min_le_left _ _

/-- Witness for C1 at the one-perception store and the query `[1]`. -/
theorem activate_results_spec_witness :
    ∃ l : List (String × ℚ),
      l.Perm (gOne.nodes.filterMap fun p =>
        if (1:ℚ)/2 < dot p.embedding [1] then some (p.bundle_id, dot p.embedding [1])
        else none) ∧
      l.Sorted (fun a b : String × ℚ => b.2 ≤ a.2) ∧
      activate_results gOne [1] = l.take 5 ∧
      (activate_results gOne [1]).Sorted (fun a b : String × ℚ => b.2 ≤ a.2) ∧
      (activate_results gOne [1]).length ≤ 5 :=
  activate_results_spec gOne [1] (by intro p hp; simp [gOne] at hp; subst hp; rfl)

/-- The graph of six perceptions with distinct positive similarities
against the query `[1]`, all strictly above the threshold. -/
def gSix : Graph :=
  ⟨[⟨"a", [6], 0, 1/2⟩, ⟨"b", [5], 0, 1/2⟩, ⟨"c", [4], 0, 1/2⟩,
    ⟨"d", [3], 0, 1/2⟩, ⟨"e", [2], 0, 1/2⟩, ⟨"f", [1], 0, 1/2⟩], []⟩

/-- C2 counterexample: with six perceptions above the threshold, the
perception `f` is not returned (the limit keeps only the top five) yet
its `activation_count` is still incremented, because the `SET` clause
runs before `ORDER BY`/`LIMIT`.  So a perception's counter is not
incremented if and only if it is returned. -/
theorem activate_update_not_iff_returned :
    (activate_results gSix [1]).map Prod.fst = ["a", "b", "c", "d", "e"] ∧
    (activate_update gSix [1]).nodes.map (fun p => (p.bundle_id, p.activation_count)) =
      [("a", 1), ("b", 1), ("c", 1), ("d", 1), ("e", 1), ("f", 1)] := by
  constructor
  · norm_num [activate_results, matchedRows, similarity, sortDesc, insertDesc, gSix]
  · norm_num [activate_update, passes, similarity, gSix]

/-- C2 (amended): a query increments `activation_count` by exactly 1 for
every perception whose similarity strictly exceeds the threshold — the
retained set, which includes perceptions later cut by the limit of 5 —
and leaves the counter of every other perception unchanged; every query
leaves every perception's id, embedding and confidence unchanged, and
every returned row comes from a retained perception. -/
theorem activate_update_spec (g : Graph) (q : List ℚ) (i : Nat)
    (hi : i < g.nodes.length) :
    (activate_update g q).nodes.length = g.nodes.length ∧
    (activate_update g q).nodes.map Perception.bundle_id =
      g.nodes.map Perception.bundle_id ∧
    (activate_update g q).nodes.map Perception.embedding =
      g.nodes.map Perception.embedding ∧
    (activate_update g q).nodes.map Perception.confidence =
      g.nodes.map Perception.confidence ∧
    (retained q (g.nodes.getD i default) →
      ((activate_update g q).nodes.getD i default).activation_count =
        (g.nodes.getD i default).activation_count + 1) ∧
    (¬ retained q (g.nodes.getD i default) →
      ((activate_update g q).nodes.getD i default).activation_count =
        (g.nodes.getD i default).activation_count) ∧
    activate_results g q ⊆ matchedRows g.nodes q := by
  refine ⟨by simp [activate_update], ?_, ?_, ?_, ?_, ?_, activate_results_subset g q⟩
  · unfold activate_update
    dsimp only
    rw [List.map_map]
    refine List.map_congr_left fun p _ => ?_
    by_cases h : passes q p <;> simp [h]
  · unfold activate_update
    dsimp only
    rw [List.map_map]
    refine List.map_congr_left fun p _ => ?_
    by_cases h : passes q p <;> simp [h]
  · unfold activate_update
    dsimp only
    rw [List.map_map]
    refine List.map_congr_left fun p _ => ?_
    by_cases h : passes q p <;> simp [h]
  · intro hr
    rw [getD_activate_update g q i hi, if_pos ((passes_iff q _).mpr hr)]
  · intro hr
    rw [getD_activate_update g q i hi,
      if_neg (fun hp => hr ((passes_iff q _).mp hp))]

/-- Witness for C2 at the one-perception store: the single perception is
retained by the query `[1]` and its counter goes from 0 to 1. -/
theorem activate_update_spec_witness :
    retained [1] (gOne.nodes.getD 0 default) ∧
    ((activate_update gOne [1]).nodes.getD 0 default).activation_count =
      (gOne.nodes.getD 0 default).activation_count + 1 := by
  have hr : retained [1] (gOne.nodes.getD 0 default) := by
    refine ⟨1, ?_, by norm_num⟩
    norm_num [gOne, similarity]
  exact ⟨hr, (activate_update_spec gOne [1] 0 (by simp [gOne])).2.2.2.2.1 hr⟩

/-- C3: on a non-empty query list, `test` scores each query with binary
accuracy — 1 when the rank-0 result's id is among the expected ids, 0
otherwise, including 0 for an empty result — and returns the arithmetic
mean of the per-query accuracies.  Each query is scored against the
rankings of the original store, because the intervening counter updates
do not change the rankings. -/
theorem test_spec (g : Graph) (qs : List TestQuery) (h : qs ≠ []) :
    test g qs = Except.ok
      ((qs.map fun query =>
          calculate_accuracy (activate_results g query.embedding) query.expected).sum /
        (qs.length : ℚ)) := by
  simp only [test]
  rw [foldl_testStep qs g [], List.nil_append, List.length_map]
  rw [if_neg fun h0 => h (List.length_eq_zero.mp h0)]

/-- Witness for C3: one query on the one-perception store, whose expected
ids contain the top result, giving mean accuracy 1. -/
theorem test_spec_witness : test gOne [⟨"q1", [1], ["a"]⟩] = Except.ok 1 := by
  rw [test_spec gOne [⟨"q1", [1], ["a"]⟩] (by simp)]
  norm_num [gOne, activate_results, matchedRows, similarity, sortDesc, insertDesc,
    calculate_accuracy]

/-- C4 counterexample: on an empty query list, `test` fails with the
interpreter's zero-division error from `sum(results) / len(results)`,
which is not the explicit `EmptyInput` error required by the claim. -/
theorem test_empty_not_emptyInput :
    test ⟨[], []⟩ [] = Except.error TestError.zeroDivisionError ∧
    TestError.zeroDivisionError ≠ TestError.emptyInput :=
  ⟨rfl, by decide⟩

/-- C4 (amended): on an empty query list, `test` performs
`sum([]) / len([])`, a division of zero by zero, and therefore fails with
a `ZeroDivisionError` rather than an explicit `EmptyInput` error; it
returns no value at all (in particular never `NaN`). -/
theorem test_empty_zero_division (g : Graph) :
    test g [] = Except.error TestError.zeroDivisionError := rfl

/-- A store holding a two-dimensional perception `a` and a
one-dimensional perception `b`. -/
def gMix : Graph := ⟨[⟨"a", [1, 1], 0, 1/2⟩, ⟨"b", [1], 0, 1/2⟩], []⟩

/-- C5 counterexample: querying `gMix` with the one-dimensional vector
`[2]` raises nothing — it returns the row for `b` and silently skips the
mismatched perception `a`, whose similarity is `null`; had the query been
truncated or zero-padded to `a`'s length, `a` would have scored `2` and
been returned first. -/
theorem activate_mismatch_no_error :
    activate_results gMix [2] = [("b", 2)] ∧
    similarity ([1, 1] : List ℚ) [2] = none := by
  constructor
  · norm_num [activate_results, matchedRows, similarity, sortDesc, insertDesc, gMix]
  · norm_num [similarity]

/-- C5 (amended): a stored perception whose embedding is longer than the
query vector never raises a `DimensionMismatch` error; its similarity is
`null`, it is never retained, and the query result is exactly what it
would be if the mismatched perceptions were absent — they are silently
skipped. -/
theorem activate_mismatch_skipped (g : Graph) (q : List ℚ) (p : Perception)
    (hp : p ∈ g.nodes) (hlen : q.length < p.embedding.length) :
    similarity p.embedding q = none ∧
    ¬ retained q p ∧
    activate_results g q =
      activate_results
        ⟨g.nodes.filter fun p2 => decide (p2.embedding.length ≤ q.length), g.edges⟩ q := by
  refine ⟨similarity_none _ _ hlen, ?_, ?_⟩
  · rintro ⟨s, hs, _⟩
    rw [similarity_none _ _ hlen] at hs
    exact Option.noConfusion hs
  · unfold activate_results
    dsimp only
    rw [matchedRows_filter_len q g.nodes]

/-- Witness for C5 at the mixed store: the two-dimensional perception is
skipped when querying with `[2]`. -/
theorem activate_mismatch_skipped_witness :
    similarity ([1, 1] : List ℚ) [2] = none ∧
    ¬ retained [2] ⟨"a", [1, 1], 0, 1/2⟩ ∧
    activate_results gMix [2] =
      activate_results
        ⟨gMix.nodes.filter fun p2 => decide (p2.embedding.length ≤ ([2] : List ℚ).length),
          gMix.edges⟩ [2] :=
  activate_mismatch_skipped gMix [2] ⟨"a", [1, 1], 0, 1/2⟩ (by simp [gMix]) (by decide)

/-- A store holding one perception whose embedding has squared norm
`1/4`, below the threshold. -/
def gHalf : Graph := ⟨[⟨"a", [1/2], 0, 1/2⟩], []⟩

/-- C6 counterexample: the code's threshold `0.5` is strictly less than
1, yet querying the perception `a` with its own embedding `[1/2]` returns
nothing, because the filter compares the similarity `dot(e, e) = 1/4`
against the absolute constant `0.5`, not against `dot(e, e) * threshold`. -/
theorem self_query_below_threshold :
    activate_results gHalf [1/2] = [] ∧ (1:ℚ)/2 < 1 := by
  constructor
  · norm_num [activate_results, matchedRows, similarity, sortDesc, gHalf]
  · norm_num

/-- C6 (amended): querying with a perception's own embedding `e` returns
that perception exactly when `dot(e, e)` strictly exceeds the absolute
threshold `0.5` (here stated for stores of at most 5 perceptions, so the
limit cannot cut it); for `dot(e, e) ≤ 0.5` the perception does not match
its own embedding even though the threshold is less than 1. -/
theorem self_query_retained (g : Graph) (p : Perception) (hp : p ∈ g.nodes)
    (hsize : g.nodes.length ≤ 5)
    (hdot : (1:ℚ)/2 < dot p.embedding p.embedding) :
    (p.bundle_id, dot p.embedding p.embedding) ∈ activate_results g p.embedding := by
  have hsim : similarity p.embedding p.embedding =
      some (dot p.embedding p.embedding) := similarity_eq_dot _ _ le_rfl
  have hmem : (p.bundle_id, dot p.embedding p.embedding) ∈
      matchedRows g.nodes p.embedding :=
    mem_matchedRows p.embedding p (dot p.embedding p.embedding) g.nodes hp hsim hdot
  unfold activate_results
  rw [List.take_of_length_le]
  · exact (sortDesc_perm _).mem_iff.mpr hmem
  · rw [(sortDesc_perm _).length_eq]
    exact le_trans (matchedRows_length_le _ g.nodes) hsize

/-- Witness for C6 at the one-perception store, whose embedding has
squared norm 1 above the threshold. -/
theorem self_query_retained_witness :
    ((⟨"a", [1], 0, 1/2⟩ : Perception).bundle_id,
        dot (⟨"a", [1], 0, 1/2⟩ : Perception).embedding
          (⟨"a", [1], 0, 1/2⟩ : Perception).embedding) ∈
      activate_results gOne (⟨"a", [1], 0, 1/2⟩ : Perception).embedding :=
  self_query_retained gOne ⟨"a", [1], 0, 1/2⟩ (by simp [gOne]) (by simp [gOne])
    (by norm_num [dot])

/-- C7 counterexample: storing two perceptions under the same id `a`
neither raises nor overwrites — afterwards the graph holds two distinct
perceptions (different embeddings) under that id. -/
theorem store_duplicate_two_nodes :
    (store_perception (store_perception ⟨[], []⟩ "a" [1] []) "a" [2] []).nodes.map
      (fun p => (p.bundle_id, p.embedding)) = [("a", [1]), ("a", [2])] := rfl

/-- C7 (amended): `store_perception` uses an unconditional `CREATE`, so a
duplicate id is neither rejected nor overwritten: the call always appends
one more node, and the number of perceptions carrying the given id always
grows by one. -/
theorem store_duplicate_appends (g : Graph) (id : String) (e : List ℚ)
    (rels : List (String × ℚ)) :
    (store_perception g id e rels).nodes = g.nodes ++ [⟨id, e, 0, 1/2⟩] ∧
    (store_perception g id e rels).nodes.countP (fun p => p.bundle_id == id) =
      g.nodes.countP (fun p => p.bundle_id == id) + 1 := by
  refine ⟨nodes_store_perception g id e rels, ?_⟩
  rw [nodes_store_perception, List.countP_append]
  simp

/-- C8: when the new id is fresh and stored ids are distinct, every
relation whose target exists at edge-creation time (one of the stored
perceptions or the newly created one) creates exactly one directed edge
from the new node to the target carrying the given weight, and every
relation whose target does not exist creates no edge and raises no
error — it is silently dropped from the edge list. -/
theorem store_perception_edges_spec (g : Graph) (id : String) (e : List ℚ)
    (rels : List (String × ℚ))
    (hfresh : ∀ p ∈ g.nodes, p.bundle_id ≠ id)
    (hnodup : (g.nodes.map Perception.bundle_id).Nodup) :
    (store_perception g id e rels).edges =
      g.edges ++
        (rels.filter fun rel =>
            (rel.1 == id) || g.nodes.any fun p => p.bundle_id == rel.1).map
          fun rel => (id, rel.1, rel.2) := by
  unfold store_perception
  rw [store_edges_aux g id e hfresh hnodup rels (createNode g id e) rfl]
  rfl

/-- Witness for C8: storing `a` with one relation to the existing `t` and
one to the missing `x` creates exactly the edge to `t`. -/
theorem store_perception_edges_spec_witness :
    (store_perception ⟨[⟨"t", [1], 0, 1/2⟩], []⟩ "a" [1]
        [("t", 9/10), ("x", 1/3)]).edges =
      [("a", "t", 9/10)] := by
  rw [store_perception_edges_spec ⟨[⟨"t", [1], 0, 1/2⟩], []⟩ "a" [1]
    [("t", 9/10), ("x", 1/3)] (by simp) (by simp)]
  simp

/-- C9: the returned ranking is a pure function of the stored
`(id, embedding)` pairs and the query — two stores agreeing on those
return identical rankings — so a second identical query, which sees the
same embeddings and only larger activation counters, returns exactly the
ranking of the first. -/
theorem activate_ranking_deterministic (g g2 : Graph) (q : List ℚ)
    (h : g.nodes.map (fun p => (p.bundle_id, p.embedding)) =
      g2.nodes.map fun p => (p.bundle_id, p.embedding)) :
    (activate_perceptions g q).2 = (activate_perceptions g2 q).2 ∧
    (activate_perceptions ((activate_perceptions g q).1) q).2 =
      (activate_perceptions g q).2 := by
  refine ⟨activate_results_congr g g2 q h, ?_⟩
  show activate_results (activate_update g q) q = activate_results g q
  exact activate_results_after_update g q q

/-- Witness for C9 at the one-perception store. -/
theorem activate_ranking_deterministic_witness :
    (activate_perceptions gOne [1]).2 = (activate_perceptions gOne [1]).2 ∧
    (activate_perceptions ((activate_perceptions gOne [1]).1) [1]).2 =
      (activate_perceptions gOne [1]).2 :=
  activate_ranking_deterministic gOne gOne [1] rfl

/-- C10: for a query strictly longer than a stored perception's
embedding, that perception's similarity is computed from only the first
`size(embedding)` components of the query — it equals the dot product
with the truncated query, and any query agreeing on those components
yields the same similarity, whatever the ignored trailing components. -/
theorem similarity_truncates (g : Graph) (p : Perception) (hp : p ∈ g.nodes)
    (q q2 : List ℚ) (hq : p.embedding.length < q.length)
    (htake : q.take p.embedding.length = q2.take p.embedding.length) :
    similarity p.embedding q = some (dot p.embedding (q.take p.embedding.length)) ∧
    similarity p.embedding q = similarity p.embedding q2 := by
  have hlen1 : (q.take p.embedding.length).length = p.embedding.length := by
    rw [List.length_take]
    exact min_eq_left (le_of_lt hq)
  have hq2 : p.embedding.length ≤ q2.length := by
    rw [htake, List.length_take] at hlen1
    exact min_eq_left_iff.mp hlen1
  constructor
  · rw [similarity_eq_dot _ _ (le_of_lt hq)]
    unfold dot
    rw [zip_take_self]
  · rw [similarity_eq_dot _ _ (le_of_lt hq), similarity_eq_dot _ _ hq2]
    unfold dot
    rw [← zip_take_self p.embedding q, ← zip_take_self p.embedding q2, htake]

/-- Witness for C10: with embedding `[1]`, the queries `[2, 3]` and
`[2, 7]` agree on the first component and get the same similarity. -/
theorem similarity_truncates_witness :
    similarity ([1] : List ℚ) [2, 3] = some (dot [1] (([2, 3] : List ℚ).take 1)) ∧
    similarity ([1] : List ℚ) [2, 3] = similarity [1] [2, 7] :=
  similarity_truncates gOne ⟨"a", [1], 0, 1/2⟩ (by simp [gOne]) [2, 3] [2, 7]
    (by decide) rfl

end PerceptronGraph
